import Mathlib

/-!
# Verification of the PushWorld puzzle core (`src/python3/src/pushworld/puzzle.py`)

This file gives a shallow embedding of the collision model and state-transition
engine of the PushWorld puzzle, and proves the specification claims about it.

Conventions of the embedding:
* A discrete position (`Point`) is a pair of integers `(x, y)`.
* Python `set`s of positions become `Finset Point`.
* The puzzle's per-instance data (shapes, walls, dimensions, goals, initial
  state) is a `Puzzle` structure; the collision maps are computed from it by
  definitions that mirror `_populate_static_collisions` /
  `_populate_dynamic_collisions`.
* A state is a function `Fin p.n → Point` (the Python tuple of anchor
  positions, one per movable, agent at index 0; the length is fixed by the
  type).  A `List`-level wrapper `get_next_state_list` records the
  length-preservation of the returned tuple.
* The work-list of `get_next_state` is a `List (Fin p.n)` used as a stack whose
  *head* is the top (Python appends to and pops from the *end* of its list;
  the two representations are mirror images of each other).
* The propagation loop is written with explicit fuel; the source loop has no
  fuel, and we prove (claim C9) that fuel `p.n` can never be exhausted, so the
  `outOfFuel` branch is unreachable.
-/

/-- A discrete position `(x, y)` in a PushWorld environment. -/
abbrev Point : Type := ℤ × ℤ

/-- `NUM_ACTIONS = 4` from the source. -/
def NUM_ACTIONS : ℕ := 4

/-- `AGENT_IDX = 0` from the source. -/
def AGENT_IDX : ℕ := 0

/-- `Actions.DISPLACEMENTS`: the unit displacement of each action,
in the order LEFT, RIGHT, UP, DOWN. -/
def displacement : Fin 4 → Point
  | 0 => (-1, 0)
  | 1 => (1, 0)
  | 2 => (0, -1)
  | 3 => (0, 1)

/-- `subtract_from_points(points, offset)`: the set `{p - offset}` for `p` in
`points`. -/
def subtract_from_points (points : Finset Point) (offset : Point) : Finset Point :=
  points.image (fun q => (q.1 - offset.1, q.2 - offset.2))

/-- `points_overlap(s1, s2, offset)`: whether there exists a pair
`(p1, p2) ∈ s1 × s2` with `p1 + offset = p2`.  The source computes this as
`s1 ∩ (s2 - offset) ≠ ∅`. -/
def points_overlap (s1 s2 : Finset Point) (offset : Point) : Prop :=
  (s1 ∩ subtract_from_points s2 offset).Nonempty

instance (s1 s2 : Finset Point) (offset : Point) :
    Decidable (points_overlap s1 s2 offset) :=
  Finset.decidableNonempty

theorem mem_subtract_from_points {S : Finset Point} {off q : Point} :
    q ∈ subtract_from_points S off ↔ ∃ p ∈ S, (p.1 - off.1, p.2 - off.2) = q := by
  simp [subtract_from_points]

/-- The translated-intersection reading of `points_overlap`. -/
theorem points_overlap_iff {s1 s2 : Finset Point} {off : Point} :
    points_overlap s1 s2 off ↔ ∃ p1 ∈ s1, ∃ p2 ∈ s2, p1 + off = p2 := by
  constructor
  · rintro ⟨q, hq⟩
    rcases Finset.mem_inter.mp hq with ⟨h1, h2⟩
    rcases mem_subtract_from_points.mp h2 with ⟨p2, hp2, hp2q⟩
    refine ⟨q, h1, p2, hp2, ?_⟩
    rcases q with ⟨qx, qy⟩
    rcases p2 with ⟨ax, ay⟩
    rcases off with ⟨ox, oy⟩
    simp only [Prod.mk.injEq] at hp2q
    simp only [Prod.mk_add_mk, Prod.mk.injEq]
    omega
  · rintro ⟨p1, h1, p2, h2, hadd⟩
    refine ⟨p1, Finset.mem_inter.mpr ⟨h1, mem_subtract_from_points.mpr ⟨p2, h2, ?_⟩⟩⟩
    rcases p1 with ⟨qx, qy⟩
    rcases p2 with ⟨ax, ay⟩
    rcases off with ⟨ox, oy⟩
    simp only [Prod.mk_add_mk, Prod.mk.injEq] at hadd
    simp only [Prod.mk.injEq]
    omega

/-- The cells of a shape translated to an anchor position. -/
def cellsAt (shape : Finset Point) (pos : Point) : Finset Point :=
  shape.image (fun c => c + pos)

theorem mem_cellsAt {shape : Finset Point} {pos q : Point} :
    q ∈ cellsAt shape pos ↔ ∃ c ∈ shape, c + pos = q := by
  simp only [cellsAt, Finset.mem_image]

/-- Two translated shapes intersect iff the shapes overlap at the offset given
by the difference of their anchors. -/
theorem cellsAt_inter_eq_empty_iff {A B : Finset Point} {pa pb : Point} :
    cellsAt A pa ∩ cellsAt B pb = ∅ ↔ ¬ points_overlap A B (pa - pb) := by
  rw [points_overlap_iff, Finset.eq_empty_iff_forall_not_mem]
  constructor
  · intro h ⟨a, ha, b, hb, hab⟩
    refine h (a + pa) (Finset.mem_inter.mpr ⟨mem_cellsAt.mpr ⟨a, ha, rfl⟩,
      mem_cellsAt.mpr ⟨b, hb, ?_⟩⟩)
    rcases a with ⟨a1, a2⟩; rcases b with ⟨b1, b2⟩
    rcases pa with ⟨x1, x2⟩; rcases pb with ⟨y1, y2⟩
    simp only [Prod.mk_add_mk, Prod.mk_sub_mk, Prod.mk.injEq] at hab ⊢
    omega
  · intro h q hq
    rcases Finset.mem_inter.mp hq with ⟨hqa, hqb⟩
    rcases mem_cellsAt.mp hqa with ⟨a, ha, rfl⟩
    rcases mem_cellsAt.mp hqb with ⟨b, hb, hba⟩
    refine h ⟨a, ha, b, hb, ?_⟩
    rcases a with ⟨a1, a2⟩; rcases b with ⟨b1, b2⟩
    rcases pa with ⟨x1, x2⟩; rcases pb with ⟨y1, y2⟩
    simp only [Prod.mk_add_mk, Prod.mk_sub_mk, Prod.mk.injEq] at hba ⊢
    omega

/-- A translated shape intersects a set of global cells iff the shape overlaps
that set at the offset given by its anchor. -/
theorem cellsAt_inter_static_eq_empty_iff {A S : Finset Point} {pa : Point} :
    cellsAt A pa ∩ S = ∅ ↔ ¬ points_overlap A S pa := by
  rw [points_overlap_iff, Finset.eq_empty_iff_forall_not_mem]
  constructor
  · intro h ⟨a, ha, b, hb, hab⟩
    exact h (a + pa) (Finset.mem_inter.mpr ⟨mem_cellsAt.mpr ⟨a, ha, rfl⟩, hab ▸ hb⟩)
  · intro h q hq
    rcases Finset.mem_inter.mp hq with ⟨hqa, hqs⟩
    rcases mem_cellsAt.mp hqa with ⟨a, ha, rfl⟩
    exact h ⟨a, ha, a + pa, hqs, rfl⟩

/-- The width of an object shape: `max xx - min xx + 1` as in
`_populate_static_collisions` (`object_size[0]`). -/
def extentX (O : Finset Point) : ℤ :=
  ((O.image Prod.fst).max.unbot' 0) - ((O.image Prod.fst).min.untop' 0) + 1

/-- The height of an object shape: `max yy - min yy + 1` as in
`_populate_static_collisions` (`object_size[1]`). -/
def extentY (O : Finset Point) : ℤ :=
  ((O.image Prod.snd).max.unbot' 0) - ((O.image Prod.snd).min.untop' 0) + 1

/-- `_populate_static_collisions`: the set of anchor positions of an object
(with cells `object_pixels`, in the object's frame) from which moving one
cell in the direction of `action` collides with the static obstacle cells
`static_obstacle_pixels` (in the global frame), restricted to the valid anchor
range and excluding positions where the object already overlaps the
obstacles. -/
def static_collisions (action : Fin 4) (object_pixels static_obstacle_pixels : Finset Point)
    (width height : ℤ) : Finset Point :=
  let d := displacement action
  let w := width - extentX object_pixels
  let h := height - extentY object_pixels
  ((object_pixels ×ˢ static_obstacle_pixels).image
      (fun oc => (-d.1 + oc.2.1 - oc.1.1, -d.2 + oc.2.2 - oc.1.2))).filter
    (fun r => 0 ≤ r.1 ∧ 0 ≤ r.2 ∧ r.1 ≤ w ∧ r.2 ≤ h ∧
      ¬ points_overlap object_pixels static_obstacle_pixels r)

/-- `_populate_dynamic_collisions`: the set of positions of the pusher relative
to the pushee in which moving the pusher one cell in the direction of `action`
collides with the pushee, excluding relative positions where the two already
overlap. -/
def dynamic_collisions (action : Fin 4) (pusher_pixels pushee_pixels : Finset Point) :
    Finset Point :=
  let d := displacement action
  ((pusher_pixels ×ˢ pushee_pixels).image
      (fun pc => (-d.1 + pc.2.1 - pc.1.1, -d.2 + pc.2.2 - pc.1.2))).filter
    (fun r => ¬ points_overlap pusher_pixels pushee_pixels r)

theorem mem_static_collisions {action : Fin 4} {O S : Finset Point} {w h : ℤ} {r : Point} :
    r ∈ static_collisions action O S w h ↔
      (∃ oc ∈ O, ∃ sc ∈ S,
          r = (sc.1 - oc.1 - (displacement action).1, sc.2 - oc.2 - (displacement action).2)) ∧
        0 ≤ r.1 ∧ 0 ≤ r.2 ∧ r.1 ≤ w - extentX O ∧ r.2 ≤ h - extentY O ∧
        ¬ points_overlap O S r := by
  unfold static_collisions
  rw [Finset.mem_filter]
  constructor
  · rintro ⟨him, h1, h2, h3, h4, h5⟩
    rcases Finset.mem_image.mp him with ⟨oc, hoc, hfr⟩
    rcases Finset.mem_product.mp hoc with ⟨ho, hs⟩
    refine ⟨⟨oc.1, ho, oc.2, hs, ?_⟩, h1, h2, h3, h4, h5⟩
    rw [← hfr]
    simp only [Prod.mk.injEq]
    constructor <;> ring
  · rintro ⟨⟨oc, ho, sc, hs, hr⟩, h1, h2, h3, h4, h5⟩
    refine ⟨Finset.mem_image.mpr ⟨(oc, sc), Finset.mem_product.mpr ⟨ho, hs⟩, ?_⟩, h1, h2, h3, h4, h5⟩
    rw [hr]
    simp only [Prod.mk.injEq]
    constructor <;> ring

theorem mem_dynamic_collisions {action : Fin 4} {P Q : Finset Point} {r : Point} :
    r ∈ dynamic_collisions action P Q ↔
      (∃ pc ∈ P, ∃ qc ∈ Q,
          r = (qc.1 - pc.1 - (displacement action).1, qc.2 - pc.2 - (displacement action).2)) ∧
        ¬ points_overlap P Q r := by
  unfold dynamic_collisions
  rw [Finset.mem_filter]
  constructor
  · rintro ⟨him, h5⟩
    rcases Finset.mem_image.mp him with ⟨pc, hpc, hfr⟩
    rcases Finset.mem_product.mp hpc with ⟨hp, hq⟩
    refine ⟨⟨pc.1, hp, pc.2, hq, ?_⟩, h5⟩
    rw [← hfr]
    simp only [Prod.mk.injEq]
    constructor <;> ring
  · rintro ⟨⟨pc, hp, qc, hq, hr⟩, h5⟩
    refine ⟨Finset.mem_image.mpr ⟨(pc, qc), Finset.mem_product.mpr ⟨hp, hq⟩, ?_⟩, h5⟩
    rw [hr]
    simp only [Prod.mk.injEq]
    constructor <;> ring

/-- The data of a loaded standard PushWorld puzzle, as built by
`PushWorldPuzzle.__init__`:
* `n` is `num_movables` (agent included, at index `AGENT_IDX = 0`);
* `shapes i` is `obj_pixels[movables[i]]`, the cells of movable `i` in its own
  frame;
* `wall` is `obj_pixels["w"]` (authored walls plus the synthesized border), in
  the global frame;
* `aw` is `obj_pixels["aw"]` as parsed, i.e. *before* the constructor merges
  the wall cells into it while building the agent collision map;
* `width`/`height` are the grid dimensions;
* `goals` is `goal_state`, `init` is `initial_state`. -/
structure Puzzle where
  n : ℕ
  npos : 0 < n
  shapes : Fin n → Finset Point
  wall : Finset Point
  aw : Finset Point
  width : ℤ
  height : ℤ
  goals : List Point
  init : Fin n → Point

namespace Puzzle

variable (p : Puzzle)

/-- The agent's index in a state tuple. -/
def agentIdx : Fin p.n := ⟨AGENT_IDX, p.npos⟩

/-- A state: the tuple of anchor positions, one per movable (fixed length
`p.n`, agent at index 0). -/
abbrev StateV (p : Puzzle) : Type := Fin p.n → Point

/-- The `wall_positions` property. -/
def wall_positions : Finset Point := p.wall

/-- The contents of `obj_pixels["aw"]` after `k` passes of the loop that
populates the agent collision map: each pass first executes
`obj_pixels["aw"].update(obj_pixels["w"])`. -/
def aw_after_update (k : ℕ) : Finset Point := (fun S => S ∪ p.wall)^[k] p.aw

/-- The `agent_wall_positions` property.  The constructor stores a *reference*
to the set `obj_pixels["aw"]` (line 259) and the collision-map loop later
mutates that same set in place, so the property observes the set as of the end
of the `NUM_ACTIONS` update passes. -/
def agent_wall_positions : Finset Point := p.aw_after_update NUM_ACTIONS

/-- `self._agent_collision_map[a]`: the map for action `a` is populated in
pass `a` of the loop, after `a + 1` in-place `update`s of `obj_pixels["aw"]`. -/
def agent_collision_map (a : Fin 4) : Finset Point :=
  static_collisions a (p.shapes p.agentIdx) (p.aw_after_update ((a : ℕ) + 1)) p.width p.height

/-- `self._wall_collision_map[a][m]`; index `AGENT_IDX` keeps its initial
empty set (the populating loop starts at movable 1). -/
def wall_collision_map (a : Fin 4) (m : Fin p.n) : Finset Point :=
  if m = p.agentIdx then ∅
  else static_collisions a (p.shapes m) p.wall p.width p.height

/-- `self._movable_collision_map[a][pusher][pushee]`; pushee index `AGENT_IDX`
keeps its initial empty set (the populating loop's pushee range starts at 1). -/
def movable_collision_map (a : Fin 4) (pusher pushee : Fin p.n) : Finset Point :=
  if pushee = p.agentIdx then ∅
  else dynamic_collisions a (p.shapes pusher) (p.shapes pushee)

/-- The push membership test of `get_next_state`:
`relative_pos = state[m] - state[k]` lies in
`self._movable_collision_map[action][m][k]`. -/
def pushedBy (s : p.StateV) (a : Fin 4) (m k : Fin p.n) : Prop :=
  s m - s k ∈ p.movable_collision_map a m k

instance (s : p.StateV) (a : Fin 4) (m k : Fin p.n) : Decidable (p.pushedBy s a m k) :=
  inferInstanceAs (Decidable (_ ∈ _))

/-- The wall-blocking test of `get_next_state`:
`obstacle_pos in walls[obstacle_idx]`. -/
def wallBlocked (s : p.StateV) (a : Fin 4) (k : Fin p.n) : Prop :=
  s k ∈ p.wall_collision_map a k

instance (s : p.StateV) (a : Fin 4) (k : Fin p.n) : Decidable (p.wallBlocked s a k) :=
  inferInstanceAs (Decidable (_ ∈ _))

/-- The candidate pushees examined by the inner loop of `get_next_state`:
`range(1, self.num_movables)`. -/
def others : List (Fin p.n) := (List.finRange p.n).filter (fun k => k ≠ p.agentIdx)

end Puzzle

/-- Outcome of the push-propagation loop: a transitive block (`blocked`, the
source returns the unchanged state), or normal completion with the final set
of pushed indices (`done`).  `outOfFuel` is an artifact of the fuelled
embedding of the source's unbounded `while` loop; it is proved unreachable. -/
inductive PropagateResult (n : ℕ) where
  | blocked : PropagateResult n
  | done : Finset (Fin n) → PropagateResult n
  | outOfFuel : PropagateResult n
deriving DecidableEq

namespace Puzzle

variable (p : Puzzle)

/-- The inner `for obstacle_idx in range(1, self.num_movables)` loop of
`get_next_state`, examining candidate pushees of `m` in order: already-pushed
indices are skipped, a pushee whose position is wall-blocked aborts the whole
action (`none`), and otherwise the pushee is marked pushed and appended to the
work-list (our list's head is the stack top). -/
def examine (s : p.StateV) (a : Fin 4) (m : Fin p.n) :
    List (Fin p.n) → Finset (Fin p.n) → List (Fin p.n) →
      Option (Finset (Fin p.n) × List (Fin p.n))
  | [], pushed, frontier => some (pushed, frontier)
  | k :: ks, pushed, frontier =>
    if k ∈ pushed then examine s a m ks pushed frontier
    else if p.pushedBy s a m k then
      if p.wallBlocked s a k then none
      else examine s a m ks (insert k pushed) (k :: frontier)
    else examine s a m ks pushed frontier

/-- The `while frontier:` loop of `get_next_state`, generalized over the
position (`picks`) of the element removed from the work-list at each
iteration, so that independence from the processing order can be stated.  The
source pops the top of the stack, which is `picks = fun _ => 0` in our
head-is-top representation.  Fuel counts loop iterations. -/
def loopAny (s : p.StateV) (a : Fin 4) (picks : ℕ → ℕ) :
    ℕ → Finset (Fin p.n) → List (Fin p.n) → PropagateResult p.n
  | _, pushed, [] => .done pushed
  | 0, _, _ :: _ => .outOfFuel
  | fuel + 1, pushed, x :: xs =>
    let m := (x :: xs).get ⟨picks 0 % (x :: xs).length, Nat.mod_lt _ (Nat.succ_pos _)⟩
    let rest := (x :: xs).eraseIdx (picks 0 % (x :: xs).length)
    match p.examine s a m p.others pushed rest with
    | none => .blocked
    | some (pushed', frontier') => loopAny s a (fun j => picks (j + 1)) fuel pushed' frontier'

/-- The push-propagation phase of `get_next_state`: the work-list starts as
`[AGENT_IDX]` with only the agent marked pushed, elements are popped from the
top of the stack, and `p.n` iterations of fuel are provided (proved
sufficient). -/
def propagate (s : p.StateV) (a : Fin 4) : PropagateResult p.n :=
  p.loopAny s a (fun _ => 0) p.n {p.agentIdx} [p.agentIdx]

/-- `PushWorldPuzzle.get_next_state`: if the agent's position is in the agent
collision map the actor cannot move; otherwise push propagation either aborts
(transitive stopping, original state returned) or yields the pushed set, and
the next state translates the agent and every pushed index by the action's
displacement, all other movables keeping their positions. -/
def get_next_state (s : p.StateV) (a : Fin 4) : p.StateV :=
  if s p.agentIdx ∈ p.agent_collision_map a then s
  else
    match p.propagate s a with
    | .blocked => s
    | .outOfFuel => s
    | .done pushed =>
      fun i => if i = p.agentIdx ∨ i ∈ pushed then s i + displacement a else s i

/-- `get_next_state` with an arbitrary work-list processing order. -/
def get_next_state_with (picks : ℕ → ℕ) (s : p.StateV) (a : Fin 4) : p.StateV :=
  if s p.agentIdx ∈ p.agent_collision_map a then s
  else
    match p.loopAny s a picks p.n {p.agentIdx} [p.agentIdx] with
    | .blocked => s
    | .outOfFuel => s
    | .done pushed =>
      fun i => if i = p.agentIdx ∨ i ∈ pushed then s i + displacement a else s i

/-- `get_next_state` at the level of the state *tuple* (a `List` of length
`p.n`), recording that the returned tuple has the same length as the input. -/
def get_next_state_list (l : List Point) (a : Fin 4) : List Point :=
  if h : l.length = p.n then
    List.ofFn (fun i => p.get_next_state (fun j => l.get (Fin.cast h.symm j)) a i)
  else l

/-- One round of declarative push propagation: add every movable that is not
wall-blocked and is pushed (per the collision tables, read on the original
state) by some already-pushed movable. -/
def closStep (s : p.StateV) (a : Fin 4) (S : Finset (Fin p.n)) : Finset (Fin p.n) :=
  S ∪ Finset.univ.filter (fun k => ¬ p.wallBlocked s a k ∧ ∃ m ∈ S, p.pushedBy s a m k)

/-- The chain of movables pushed by the agent's move: the closure of
`{AGENT_IDX}` under single-push steps through non-blocked movables. -/
def pushClosure (s : p.StateV) (a : Fin 4) : Finset (Fin p.n) :=
  (p.closStep s a)^[p.n] {p.agentIdx}

/-- The transitive-blocking condition: some movable in the pushed chain pushes
a movable whose position is wall-blocked for this action. -/
def TransBlocked (s : p.StateV) (a : Fin 4) : Prop :=
  ∃ m ∈ p.pushClosure s a, ∃ k, p.pushedBy s a m k ∧ p.wallBlocked s a k

instance (s : p.StateV) (a : Fin 4) : Decidable (p.TransBlocked s a) := by
  unfold TransBlocked
  infer_instance

/-- `PushWorldPuzzle.is_goal_state`: whether
`state[1 : 1 + len(goal_state)] == goal_state`. -/
def is_goal_state (s : p.StateV) : Bool :=
  decide (((List.ofFn s).drop 1).take p.goals.length = p.goals)

/-- The replay loop of `PushWorldPuzzle.is_valid_plan`, from an arbitrary
state: reaching the goal before the plan is exhausted fails the plan. -/
def is_valid_plan_from (s : p.StateV) : List (Fin 4) → Bool
  | [] => p.is_goal_state s
  | a :: rest =>
    if p.is_goal_state s then false
    else is_valid_plan_from (p.get_next_state s a) rest

/-- `PushWorldPuzzle.is_valid_plan`. -/
def is_valid_plan (plan : List (Fin 4)) : Bool :=
  p.is_valid_plan_from p.init plan

end Puzzle

/-- The data of a loaded `BraindeadPushWorldPuzzle`: only an agent position, a
goal position, and the grid dimensions (no walls, no other movables; its state
is the 1-tuple of the agent's position). -/
structure BraindeadPuzzle where
  width : ℤ
  height : ℤ
  agent_position : Point
  goal_position : Point

namespace BraindeadPuzzle

variable (b : BraindeadPuzzle)

/-- `BraindeadPushWorldPuzzle.get_next_state`: the agent moves freely within
the grid bounds `1 ≤ x ≤ width`, `1 ≤ y ≤ height`; an out-of-bounds move is a
no-op. -/
def get_next_state (s : Point) (a : Fin 4) : Point :=
  let new_pos := s + displacement a
  if 1 ≤ new_pos.1 ∧ new_pos.1 ≤ b.width ∧ 1 ≤ new_pos.2 ∧ new_pos.2 ≤ b.height then new_pos
  else s

/-- `BraindeadPushWorldPuzzle.is_goal_state`: the agent is at the goal. -/
def is_goal_state (s : Point) : Bool :=
  decide (s = b.goal_position)

/-- The replay loop of `BraindeadPushWorldPuzzle.is_valid_plan`: reaching the
goal before the plan is exhausted *succeeds*. -/
def is_valid_plan_from (s : Point) : List (Fin 4) → Bool
  | [] => b.is_goal_state s
  | a :: rest =>
    if b.is_goal_state s then true
    else is_valid_plan_from (b.get_next_state s a) rest

/-- `BraindeadPushWorldPuzzle.is_valid_plan`. -/
def is_valid_plan (plan : List (Fin 4)) : Bool :=
  b.is_valid_plan_from b.agent_position plan

end BraindeadPuzzle

/-- The push-contact set as §3 of the spec words it: the set of relative
offsets `pushee.anchor − pusher.anchor` at which moving the pusher one cell in
the direction of `action` brings it into contact with the pushee, excluding
offsets at which the two already overlap.  (Written from the spec's words, to
be compared with `dynamic_collisions`, which embeds the source.) -/
def dynamic_collisions_pushee_minus_pusher (action : Fin 4) (P Q : Finset Point) :
    Finset Point :=
  let d := displacement action
  ((P ×ˢ Q).image (fun pc => (pc.1.1 - pc.2.1 + d.1, pc.1.2 - pc.2.2 + d.2))).filter
    (fun r => ¬ points_overlap Q P r)

namespace Puzzle

variable (p : Puzzle)

theorem not_pushedBy_agent (s : p.StateV) (a : Fin 4) (m : Fin p.n) :
    ¬ p.pushedBy s a m p.agentIdx := by
  unfold pushedBy movable_collision_map
  simp

theorem mem_others {k : Fin p.n} : k ∈ p.others ↔ k ≠ p.agentIdx := by
  unfold others
  simp [List.mem_filter]

theorem others_nodup : p.others.Nodup :=
  (List.nodup_finRange p.n).filter _

theorem subset_closStep (s : p.StateV) (a : Fin 4) (S : Finset (Fin p.n)) :
    S ⊆ p.closStep s a S :=
  Finset.subset_union_left

theorem mem_closStep {s : p.StateV} {a : Fin 4} {S : Finset (Fin p.n)} {k : Fin p.n} :
    k ∈ p.closStep s a S ↔
      k ∈ S ∨ (¬ p.wallBlocked s a k ∧ ∃ m ∈ S, p.pushedBy s a m k) := by
  unfold closStep
  simp [Finset.mem_union, Finset.mem_filter]

theorem subset_iterate_closStep (s : p.StateV) (a : Fin 4) (S : Finset (Fin p.n)) :
    ∀ k : ℕ, S ⊆ (p.closStep s a)^[k] S := by
  intro k
  induction k with
  | zero => exact subset_refl S
  | succ k ih =>
    rw [Function.iterate_succ_apply']
    exact ih.trans (p.subset_closStep s a _)

theorem agentIdx_mem_pushClosure (s : p.StateV) (a : Fin 4) :
    p.agentIdx ∈ p.pushClosure s a :=
  p.subset_iterate_closStep s a {p.agentIdx} p.n (Finset.mem_singleton_self _)

theorem closStep_pushClosure (s : p.StateV) (a : Fin 4) :
    p.closStep s a (p.pushClosure s a) = p.pushClosure s a := by
  set f := p.closStep s a with hf
  set S0 : Finset (Fin p.n) := {p.agentIdx} with hS0
  have hgrow : ∀ k : ℕ, (∀ j < k, f^[j + 1] S0 ≠ f^[j] S0) → k + 1 ≤ (f^[k] S0).card := by
    intro k
    induction k with
    | zero =>
      intro _
      simp [hS0]
    | succ k ih =>
      intro h
      have hk : k + 1 ≤ (f^[k] S0).card := ih (fun j hj => h j (Nat.lt_succ_of_lt hj))
      have hne : f^[k + 1] S0 ≠ f^[k] S0 := h k (Nat.lt_succ_self k)
      have hsub : f^[k] S0 ⊆ f^[k + 1] S0 := by
        rw [Function.iterate_succ_apply']
        exact p.subset_closStep s a _
      have hss : f^[k] S0 ⊂ f^[k + 1] S0 := ⟨hsub, fun h2 => hne (subset_antisymm h2 hsub)⟩
      have := Finset.card_lt_card hss
      omega
  have hex : ∃ j < p.n, f^[j + 1] S0 = f^[j] S0 := by
    by_contra hcon
    push_neg at hcon
    have := hgrow p.n hcon
    have hle : (f^[p.n] S0).card ≤ p.n := by
      have h1 := Finset.card_le_univ (f^[p.n] S0)
      simpa using h1
    omega
  obtain ⟨j, hj, hfix⟩ := hex
  have hstable : ∀ i : ℕ, f^[j + i] S0 = f^[j] S0 := by
    intro i
    induction i with
    | zero => rfl
    | succ i ih =>
      have h1 : f^[j + (i + 1)] S0 = f (f^[j + i] S0) :=
        Function.iterate_succ_apply' f (j + i) S0
      rw [h1, ih]
      exact (Function.iterate_succ_apply' f j S0).symm.trans hfix
  have hjn : j + (p.n - j) = p.n := by omega
  have hNj := hstable (p.n - j)
  rw [hjn] at hNj
  have hPC : p.pushClosure s a = f^[p.n] S0 := rfl
  rw [hPC, hNj]
  exact (Function.iterate_succ_apply' f j S0).symm.trans hfix

theorem pushClosure_minimal (s : p.StateV) (a : Fin 4) (S : Finset (Fin p.n))
    (h0 : p.agentIdx ∈ S)
    (hcl : ∀ m ∈ S, ∀ k, p.pushedBy s a m k → ¬ p.wallBlocked s a k → k ∈ S) :
    p.pushClosure s a ⊆ S := by
  unfold pushClosure
  have : ∀ j : ℕ, (p.closStep s a)^[j] {p.agentIdx} ⊆ S := by
    intro j
    induction j with
    | zero =>
      intro k hk
      rw [Function.iterate_zero_apply, Finset.mem_singleton] at hk
      exact hk ▸ h0
    | succ j ih =>
      rw [Function.iterate_succ_apply']
      intro k hk
      rcases p.mem_closStep.mp hk with hk | ⟨hnb, m, hm, hp⟩
      · exact ih hk
      · exact hcl m (ih hm) k hp hnb
  exact this p.n

theorem pushClosure_not_blocked (s : p.StateV) (a : Fin 4) :
    ∀ k ∈ p.pushClosure s a, k ≠ p.agentIdx → ¬ p.wallBlocked s a k := by
  have : ∀ j : ℕ, ∀ k ∈ (p.closStep s a)^[j] {p.agentIdx},
      k ≠ p.agentIdx → ¬ p.wallBlocked s a k := by
    intro j
    induction j with
    | zero =>
      intro k hk hne
      rw [Function.iterate_zero_apply, Finset.mem_singleton] at hk
      exact absurd hk hne
    | succ j ih =>
      intro k hk hne
      rw [Function.iterate_succ_apply'] at hk
      rcases p.mem_closStep.mp hk with hk | ⟨hnb, _⟩
      · exact ih k hk hne
      · exact hnb
  exact this p.n

/-- Members of the push closure are closed under further pushes through
non-blocked movables. -/
theorem pushClosure_closed {s : p.StateV} {a : Fin 4} {m k : Fin p.n}
    (hm : m ∈ p.pushClosure s a) (hp : p.pushedBy s a m k)
    (hnb : ¬ p.wallBlocked s a k) : k ∈ p.pushClosure s a := by
  have := p.closStep_pushClosure s a
  rw [← this]
  exact p.mem_closStep.mpr (Or.inr ⟨hnb, m, hm, hp⟩)

end Puzzle

namespace Puzzle

variable (p : Puzzle)

theorem examine_cons_mem {s : p.StateV} {a : Fin 4} {m k : Fin p.n}
    {ks frontier : List (Fin p.n)} {pushed : Finset (Fin p.n)} (hk : k ∈ pushed) :
    p.examine s a m (k :: ks) pushed frontier = p.examine s a m ks pushed frontier := by
  simp [examine, hk]

theorem examine_cons_block {s : p.StateV} {a : Fin 4} {m k : Fin p.n}
    {ks frontier : List (Fin p.n)} {pushed : Finset (Fin p.n)} (hk : k ∉ pushed)
    (hpb : p.pushedBy s a m k) (hwb : p.wallBlocked s a k) :
    p.examine s a m (k :: ks) pushed frontier = none := by
  simp [examine, hk, hpb, hwb]

theorem examine_cons_mark {s : p.StateV} {a : Fin 4} {m k : Fin p.n}
    {ks frontier : List (Fin p.n)} {pushed : Finset (Fin p.n)} (hk : k ∉ pushed)
    (hpb : p.pushedBy s a m k) (hwb : ¬ p.wallBlocked s a k) :
    p.examine s a m (k :: ks) pushed frontier =
      p.examine s a m ks (insert k pushed) (k :: frontier) := by
  simp [examine, hk, hpb, hwb]

theorem examine_cons_no_push {s : p.StateV} {a : Fin 4} {m k : Fin p.n}
    {ks frontier : List (Fin p.n)} {pushed : Finset (Fin p.n)} (hk : k ∉ pushed)
    (hpb : ¬ p.pushedBy s a m k) :
    p.examine s a m (k :: ks) pushed frontier = p.examine s a m ks pushed frontier := by
  simp [examine, hk, hpb]

/-- The inner loop aborts iff some examined candidate is pushed while
wall-blocked. -/
theorem examine_none_iff (s : p.StateV) (a : Fin 4) (m : Fin p.n) :
    ∀ (ks : List (Fin p.n)) (pushed : Finset (Fin p.n)) (frontier : List (Fin p.n)),
      p.examine s a m ks pushed frontier = none ↔
        ∃ k ∈ ks, k ∉ pushed ∧ p.pushedBy s a m k ∧ p.wallBlocked s a k := by
  intro ks
  induction ks with
  | nil =>
    intro pushed frontier
    simp [examine]
  | cons k ks ih =>
    intro pushed frontier
    by_cases hk : k ∈ pushed
    · rw [p.examine_cons_mem hk, ih]
      constructor
      · rintro ⟨x, hx, h1, h2, h3⟩
        exact ⟨x, List.mem_cons_of_mem _ hx, h1, h2, h3⟩
      · rintro ⟨x, hx, h1, h2, h3⟩
        rcases List.mem_cons.mp hx with rfl | hx
        · exact absurd hk h1
        · exact ⟨x, hx, h1, h2, h3⟩
    · by_cases hpb : p.pushedBy s a m k
      · by_cases hwb : p.wallBlocked s a k
        · rw [p.examine_cons_block hk hpb hwb]
          constructor
          · intro _
            exact ⟨k, List.mem_cons_self _ _, hk, hpb, hwb⟩
          · intro _
            rfl
        · rw [p.examine_cons_mark hk hpb hwb, ih]
          constructor
          · rintro ⟨x, hx, h1, h2, h3⟩
            refine ⟨x, List.mem_cons_of_mem _ hx, fun hxp => h1 (Finset.mem_insert_of_mem hxp),
              h2, h3⟩
          · rintro ⟨x, hx, h1, h2, h3⟩
            rcases List.mem_cons.mp hx with rfl | hx
            · exact absurd h3 hwb
            · refine ⟨x, hx, ?_, h2, h3⟩
              rw [Finset.mem_insert]
              rintro (rfl | hxp)
              · exact hwb h3
              · exact h1 hxp
      · rw [p.examine_cons_no_push hk hpb, ih]
        constructor
        · rintro ⟨x, hx, h1, h2, h3⟩
          exact ⟨x, List.mem_cons_of_mem _ hx, h1, h2, h3⟩
        · rintro ⟨x, hx, h1, h2, h3⟩
          rcases List.mem_cons.mp hx with rfl | hx
          · exact absurd h2 hpb
          · exact ⟨x, hx, h1, h2, h3⟩

/-- Full characterization of a successful inner-loop pass: the pushed set
gains exactly the not-yet-pushed candidates pushed by `m`, the work-list gains
exactly the newly pushed indices, `Nodup` is preserved (when work-list members
are marked), and the work-list length grows by as much as the pushed
cardinality. -/
theorem examine_some_spec (s : p.StateV) (a : Fin 4) (m : Fin p.n) :
    ∀ (ks : List (Fin p.n)) (pushed : Finset (Fin p.n)) (frontier : List (Fin p.n))
      (pushed' : Finset (Fin p.n)) (frontier' : List (Fin p.n)),
      p.examine s a m ks pushed frontier = some (pushed', frontier') →
        pushed ⊆ pushed' ∧
        (∀ x, x ∈ pushed' ↔ x ∈ pushed ∨ (x ∈ ks ∧ x ∉ pushed ∧ p.pushedBy s a m x)) ∧
        (∀ x, x ∈ frontier' ↔ x ∈ frontier ∨ (x ∈ pushed' ∧ x ∉ pushed)) ∧
        ((frontier.Nodup ∧ ∀ y ∈ frontier, y ∈ pushed) → frontier'.Nodup) ∧
        frontier'.length + pushed.card = frontier.length + pushed'.card := by
  intro ks
  induction ks with
  | nil =>
    intro pushed frontier pushed' frontier' hres
    rw [show p.examine s a m [] pushed frontier = some (pushed, frontier) from rfl] at hres
    obtain ⟨h1, h2⟩ : pushed = pushed' ∧ frontier = frontier' := by
      have := Option.some.inj hres
      exact ⟨congrArg Prod.fst this, congrArg Prod.snd this⟩
    subst h1
    subst h2
    refine ⟨subset_refl _, ?_, ?_, ?_, rfl⟩
    · intro x
      simp
    · intro x
      simp
    · intro h
      exact h.1
  | cons k ks ih =>
    intro pushed frontier pushed' frontier' hres
    by_cases hk : k ∈ pushed
    · rw [p.examine_cons_mem hk] at hres
      obtain ⟨hsub, hpm, hfm, hnd, hlen⟩ := ih pushed frontier pushed' frontier' hres
      refine ⟨hsub, ?_, hfm, hnd, hlen⟩
      intro x
      rw [hpm x]
      constructor
      · rintro (hx | ⟨hx1, hx2, hx3⟩)
        · exact Or.inl hx
        · exact Or.inr ⟨List.mem_cons_of_mem _ hx1, hx2, hx3⟩
      · rintro (hx | ⟨hx1, hx2, hx3⟩)
        · exact Or.inl hx
        · rcases List.mem_cons.mp hx1 with rfl | hx1
          · exact absurd hk hx2
          · exact Or.inr ⟨hx1, hx2, hx3⟩
    · by_cases hpb : p.pushedBy s a m k
      · by_cases hwb : p.wallBlocked s a k
        · rw [p.examine_cons_block hk hpb hwb] at hres
          exact absurd hres (by simp)
        · rw [p.examine_cons_mark hk hpb hwb] at hres
          obtain ⟨hsub, hpm, hfm, hnd, hlen⟩ := ih (insert k pushed) (k :: frontier)
            pushed' frontier' hres
          have hkp' : k ∈ pushed' := hsub (Finset.mem_insert_self _ _)
          refine ⟨?_, ?_, ?_, ?_, ?_⟩
          · exact fun x hx => hsub (Finset.mem_insert_of_mem hx)
          · intro x
            rw [hpm x]
            by_cases hxk : x = k
            · subst hxk
              simp only [Finset.mem_insert, true_or, true_and]
              constructor
              · intro _
                exact Or.inr ⟨List.mem_cons_self _ _, hk, hpb⟩
              · intro _
                trivial
            · simp only [Finset.mem_insert]
              constructor
              · rintro ((rfl | hx) | ⟨hx1, hx2, hx3⟩)
                · exact absurd rfl hxk
                · exact Or.inl hx
                · exact Or.inr ⟨List.mem_cons_of_mem _ hx1,
                    fun hxp => hx2 (Or.inr hxp), hx3⟩
              · rintro (hx | ⟨hx1, hx2, hx3⟩)
                · exact Or.inl (Or.inr hx)
                · rcases List.mem_cons.mp hx1 with rfl | hx1
                  · exact absurd rfl hxk
                  · exact Or.inr ⟨hx1, fun hxp => hx2 (hxp.elim
                      (fun h => absurd h hxk) id), hx3⟩
          · intro x
            rw [hfm x]
            by_cases hxk : x = k
            · subst hxk
              simp only [List.mem_cons, true_or, true_and]
              constructor
              · intro _
                exact Or.inr ⟨hkp', hk⟩
              · intro _
                trivial
            · simp only [List.mem_cons]
              constructor
              · rintro ((rfl | hx) | ⟨hx1, hx2⟩)
                · exact absurd rfl hxk
                · exact Or.inl hx
                · exact Or.inr ⟨hx1, fun hxp => hx2 (Finset.mem_insert_of_mem hxp)⟩
              · rintro (hx | ⟨hx1, hx2⟩)
                · exact Or.inl (Or.inr hx)
                · exact Or.inr ⟨hx1, fun hxp => hx2 ((Finset.mem_insert.mp hxp).elim
                    (fun h => absurd h hxk) id)⟩
          · rintro ⟨hfN, hfp⟩
            refine hnd ⟨List.nodup_cons.mpr ⟨fun hkf => hk (hfp k hkf), hfN⟩, ?_⟩
            intro y hy
            rcases List.mem_cons.mp hy with rfl | hy
            · exact Finset.mem_insert_self _ _
            · exact Finset.mem_insert_of_mem (hfp y hy)
          · have hins : (insert k pushed).card = pushed.card + 1 :=
              Finset.card_insert_of_not_mem hk
            rw [hins] at hlen
            simp only [List.length_cons] at hlen
            omega
      · rw [p.examine_cons_no_push hk hpb] at hres
        obtain ⟨hsub, hpm, hfm, hnd, hlen⟩ := ih pushed frontier pushed' frontier' hres
        refine ⟨hsub, ?_, hfm, hnd, hlen⟩
        intro x
        rw [hpm x]
        constructor
        · rintro (hx | ⟨hx1, hx2, hx3⟩)
          · exact Or.inl hx
          · exact Or.inr ⟨List.mem_cons_of_mem _ hx1, hx2, hx3⟩
        · rintro (hx | ⟨hx1, hx2, hx3⟩)
          · exact Or.inl hx
          · rcases List.mem_cons.mp hx1 with rfl | hx1
            · exact absurd hx3 hpb
            · exact Or.inr ⟨hx1, hx2, hx3⟩

end Puzzle

/-- Removing the element at index `i` from a duplicate-free list: the result
is duplicate-free, one element shorter, and contains exactly the other
elements. -/
theorem list_eraseIdx_spec {α : Type} :
    ∀ (l : List α) (i : ℕ) (hi : i < l.length), l.Nodup →
      (l.eraseIdx i).Nodup ∧ (l.eraseIdx i).length + 1 = l.length ∧
      (∀ y, y ∈ l.eraseIdx i ↔ y ∈ l ∧ y ≠ l.get ⟨i, hi⟩) := by
  intro l
  induction l with
  | nil =>
    intro i hi
    exact absurd hi (by simp)
  | cons c t ihl =>
    intro i hi hN
    cases i with
    | zero =>
      refine ⟨(List.nodup_cons.mp hN).2, rfl, ?_⟩
      intro y
      show y ∈ t ↔ y ∈ c :: t ∧ y ≠ c
      constructor
      · intro hy
        exact ⟨List.mem_cons_of_mem _ hy, fun he => (List.nodup_cons.mp hN).1 (he ▸ hy)⟩
      · rintro ⟨hy, hne⟩
        rcases List.mem_cons.mp hy with rfl | hy
        · exact absurd rfl hne
        · exact hy
    | succ i =>
      have hit : i < t.length := by
        simp only [List.length_cons] at hi
        omega
      obtain ⟨h1, h2, h3⟩ := ihl i hit (List.nodup_cons.mp hN).2
      refine ⟨?_, ?_, ?_⟩
      · exact List.nodup_cons.mpr ⟨fun hc => (List.nodup_cons.mp hN).1 ((h3 c).mp hc).1, h1⟩
      · show (c :: t.eraseIdx i).length + 1 = (c :: t).length
        simp only [List.length_cons]
        omega
      · intro y
        show y ∈ c :: t.eraseIdx i ↔ y ∈ c :: t ∧ y ≠ t.get ⟨i, hit⟩
        constructor
        · intro hy
          rcases List.mem_cons.mp hy with rfl | hy
          · exact ⟨List.mem_cons_self _ _,
              fun he => (List.nodup_cons.mp hN).1 (he ▸ List.get_mem t i hit)⟩
          · obtain ⟨hyt, hyne⟩ := (h3 y).mp hy
            exact ⟨List.mem_cons_of_mem _ hyt, hyne⟩
        · rintro ⟨hy, hne⟩
          rcases List.mem_cons.mp hy with rfl | hy
          · exact List.mem_cons_self _ _
          · exact List.mem_cons_of_mem _ ((h3 y).mpr ⟨hy, hne⟩)

namespace Puzzle

variable (p : Puzzle)

/-- The invariant of the propagation loop: the work-list is duplicate-free
and all its members are marked pushed; the agent is marked; all marks are
within the declarative push closure; no marked movable except the agent is
wall-blocked; and every marked movable that has left the work-list has all the
movables it pushes marked. -/
def Good (s : p.StateV) (a : Fin 4) (pushed : Finset (Fin p.n))
    (frontier : List (Fin p.n)) : Prop :=
  frontier.Nodup ∧
  (∀ x ∈ frontier, x ∈ pushed) ∧
  p.agentIdx ∈ pushed ∧
  pushed ⊆ p.pushClosure s a ∧
  (∀ k ∈ pushed, k ≠ p.agentIdx → ¬ p.wallBlocked s a k) ∧
  (∀ m ∈ pushed, m ∉ frontier → ∀ k, p.pushedBy s a m k → k ∈ pushed)

/-- On an empty work-list the loop finishes; under the invariant the marks are
exactly the push closure and no transitive block exists. -/
theorem loopAny_done_of_nil (s : p.StateV) (a : Fin 4) (picks : ℕ → ℕ) (fuel : ℕ)
    (pushed : Finset (Fin p.n)) (hG : p.Good s a pushed []) :
    p.loopAny s a picks fuel pushed [] =
      if p.TransBlocked s a then PropagateResult.blocked
      else PropagateResult.done (p.pushClosure s a) := by
  obtain ⟨hN, hfp, hag, hsubR, hnb, hcl⟩ := hG
  have hRsub : p.pushClosure s a ⊆ pushed :=
    p.pushClosure_minimal s a pushed hag
      (fun m hm k hp _ => hcl m hm (List.not_mem_nil m) k hp)
  have hpR : pushed = p.pushClosure s a := subset_antisymm hsubR hRsub
  have hnTB : ¬ p.TransBlocked s a := by
    rintro ⟨m, hmR, k, hpk, hbk⟩
    have hkne : k ≠ p.agentIdx := by
      rintro rfl
      exact p.not_pushedBy_agent s a m hpk
    have hkp : k ∈ pushed := hcl m (hpR ▸ hmR) (List.not_mem_nil m) k hpk
    exact hnb k hkp hkne hbk
  rw [if_neg hnTB]
  have hdone : p.loopAny s a picks fuel pushed [] = PropagateResult.done pushed := by
    cases fuel <;> rfl
  rw [hdone, hpR]

/-- Main characterization of the propagation loop: from any invariant-abiding
configuration with enough fuel, and for *any* processing order, the loop
returns `blocked` exactly when the transitive-blocking condition holds, and
otherwise finishes with the declarative push closure as the marked set. -/
theorem loopAny_eq (s : p.StateV) (a : Fin 4) :
    ∀ (fuel : ℕ) (picks : ℕ → ℕ) (pushed : Finset (Fin p.n)) (frontier : List (Fin p.n)),
      p.Good s a pushed frontier →
      p.n - pushed.card + frontier.length ≤ fuel →
      p.loopAny s a picks fuel pushed frontier =
        if p.TransBlocked s a then PropagateResult.blocked
        else PropagateResult.done (p.pushClosure s a) := by
  intro fuel
  induction fuel with
  | zero =>
    intro picks pushed frontier hG hfuel
    cases frontier with
    | nil => exact p.loopAny_done_of_nil s a picks 0 pushed hG
    | cons x xs =>
      exfalso
      simp only [List.length_cons] at hfuel
      omega
  | succ f ih =>
    intro picks pushed frontier hG hfuel
    cases frontier with
    | nil => exact p.loopAny_done_of_nil s a picks (f + 1) pushed hG
    | cons x xs =>
      obtain ⟨hN, hfp, hag, hsubR, hnbG, hclG⟩ := hG
      have hi : picks 0 % (x :: xs).length < (x :: xs).length :=
        Nat.mod_lt _ (Nat.succ_pos _)
      have hmmem : (x :: xs).get ⟨picks 0 % (x :: xs).length, hi⟩ ∈ x :: xs :=
        List.get_mem _ _ _
      have hmpu : (x :: xs).get ⟨picks 0 % (x :: xs).length, hi⟩ ∈ pushed :=
        hfp _ hmmem
      obtain ⟨hrN, hrlen, hrmem⟩ :=
        list_eraseIdx_spec (x :: xs) (picks 0 % (x :: xs).length) hi hN
      show (match p.examine s a ((x :: xs).get ⟨picks 0 % (x :: xs).length,
              Nat.mod_lt _ (Nat.succ_pos _)⟩) p.others pushed
              ((x :: xs).eraseIdx (picks 0 % (x :: xs).length)) with
          | none => PropagateResult.blocked
          | some (pushed', frontier') =>
            p.loopAny s a (fun j => picks (j + 1)) f pushed' frontier') =
        if p.TransBlocked s a then PropagateResult.blocked
        else PropagateResult.done (p.pushClosure s a)
      cases hex : p.examine s a ((x :: xs).get ⟨picks 0 % (x :: xs).length, hi⟩)
          p.others pushed ((x :: xs).eraseIdx (picks 0 % (x :: xs).length)) with
      | none =>
        obtain ⟨k, hkO, hknp, hkPb, hkBb⟩ :=
          (p.examine_none_iff s a _ _ _ _).mp hex
        have hTB : p.TransBlocked s a := ⟨_, hsubR hmpu, k, hkPb, hkBb⟩
        rw [if_pos hTB]
      | some pr =>
        obtain ⟨pushed', frontier'⟩ := pr
        show p.loopAny s a (fun j => picks (j + 1)) f pushed' frontier' =
          if p.TransBlocked s a then PropagateResult.blocked
          else PropagateResult.done (p.pushClosure s a)
        obtain ⟨hsub, hpm, hfm, hndf, hlenEq⟩ :=
          p.examine_some_spec s a _ _ _ _ _ _ hex
        have hnoneF : ∀ x', x' ∈ p.others → x' ∉ pushed →
            p.pushedBy s a ((x :: xs).get ⟨picks 0 % (x :: xs).length, hi⟩) x' →
            ¬ p.wallBlocked s a x' := by
          intro x' h1 h2 h3 hb
          have hcon := (p.examine_none_iff s a
            ((x :: xs).get ⟨picks 0 % (x :: xs).length, hi⟩) p.others pushed
            ((x :: xs).eraseIdx (picks 0 % (x :: xs).length))).mpr ⟨x', h1, h2, h3, hb⟩
          rw [hcon] at hex
          exact Option.noConfusion hex
        have hrest_pushed : ∀ y ∈ (x :: xs).eraseIdx (picks 0 % (x :: xs).length),
            y ∈ pushed := fun y hy => hfp y ((hrmem y).mp hy).1
        have hnew : ∀ y ∈ pushed', y ∉ pushed →
            (y ∈ p.others ∧ p.pushedBy s a
              ((x :: xs).get ⟨picks 0 % (x :: xs).length, hi⟩) y) := by
          intro y hy hynp
          rcases (hpm y).mp hy with hy2 | ⟨hy1, hy2, hy3⟩
          · exact absurd hy2 hynp
          · exact ⟨hy1, hy3⟩
        refine ih (fun j => picks (j + 1)) pushed' frontier' ⟨?_, ?_, ?_, ?_, ?_, ?_⟩ ?_
        · exact hndf ⟨hrN, hrest_pushed⟩
        · intro y hy
          rcases (hfm y).mp hy with hy | hy
          · exact hsub (hrest_pushed y hy)
          · exact hy.1
        · exact hsub hag
        · intro y hy
          by_cases hynp : y ∈ pushed
          · exact hsubR hynp
          · obtain ⟨hyO, hyPb⟩ := hnew y hy hynp
            exact p.pushClosure_closed (hsubR hmpu) hyPb (hnoneF y hyO hynp hyPb)
        · intro k hk hkne
          by_cases hknp : k ∈ pushed
          · exact hnbG k hknp hkne
          · obtain ⟨hkO, hkPb⟩ := hnew k hk hknp
            exact hnoneF k hkO hknp hkPb
        · intro m' hm' hm'f k hk
          by_cases hm'p : m' ∈ pushed
          · by_cases hm'm : m' = (x :: xs).get ⟨picks 0 % (x :: xs).length, hi⟩
            · subst hm'm
              by_cases hkp : k ∈ pushed
              · exact hsub hkp
              · have hkne : k ≠ p.agentIdx := by
                  rintro rfl
                  exact p.not_pushedBy_agent s a _ hk
                exact (hpm k).mpr (Or.inr ⟨(p.mem_others).mpr hkne, hkp, hk⟩)
            · by_cases hm'x : m' ∈ x :: xs
              · exfalso
                exact hm'f ((hfm m').mpr (Or.inl ((hrmem m').mpr ⟨hm'x, hm'm⟩)))
              · exact hsub (hclG m' hm'p hm'x k hk)
          · exfalso
            exact hm'f ((hfm m').mpr (Or.inr ⟨hm', hm'p⟩))
        · have hcard_le : pushed.card ≤ pushed'.card := Finset.card_le_card hsub
          have hcard_n : pushed'.card ≤ p.n := by
            have h1 := Finset.card_le_univ pushed'
            simpa using h1
          simp only [List.length_cons] at hfuel hrlen hlenEq
          omega

end Puzzle

namespace Puzzle

variable (p : Puzzle)

/-- The initial configuration of the propagation loop satisfies the
invariant. -/
theorem good_init (s : p.StateV) (a : Fin 4) :
    p.Good s a {p.agentIdx} [p.agentIdx] := by
  refine ⟨List.nodup_singleton _, ?_, Finset.mem_singleton_self _, ?_, ?_, ?_⟩
  · intro x hx
    rw [List.mem_singleton] at hx
    subst hx
    exact Finset.mem_singleton_self _
  · intro y hy
    rw [Finset.mem_singleton] at hy
    subst hy
    exact p.agentIdx_mem_pushClosure s a
  · intro k hk hkne
    rw [Finset.mem_singleton] at hk
    exact absurd hk hkne
  · intro m hm hmf k hpk
    exfalso
    rw [Finset.mem_singleton] at hm
    subst hm
    exact hmf (List.mem_singleton.mpr rfl)

/-- From the initial configuration, any fuel of at least `p.n` iterations and
any processing order give the declarative result. -/
theorem loopAny_init (s : p.StateV) (a : Fin 4) (picks : ℕ → ℕ) (fuel : ℕ)
    (hfuel : p.n ≤ fuel) :
    p.loopAny s a picks fuel {p.agentIdx} [p.agentIdx] =
      if p.TransBlocked s a then PropagateResult.blocked
      else PropagateResult.done (p.pushClosure s a) := by
  refine p.loopAny_eq s a fuel picks _ _ (p.good_init s a) ?_
  have hc : ({p.agentIdx} : Finset (Fin p.n)).card = 1 := Finset.card_singleton _
  have hl : ([p.agentIdx] : List (Fin p.n)).length = 1 := rfl
  have := p.npos
  omega

/-- `propagate` returns `blocked` exactly on the transitive-blocking
condition, and otherwise the declarative push closure. -/
theorem propagate_eq (s : p.StateV) (a : Fin 4) :
    p.propagate s a =
      if p.TransBlocked s a then PropagateResult.blocked
      else PropagateResult.done (p.pushClosure s a) :=
  p.loopAny_init s a (fun _ => 0) p.n (le_refl _)

theorem propagate_ne_outOfFuel (s : p.StateV) (a : Fin 4) :
    p.propagate s a ≠ PropagateResult.outOfFuel := by
  rw [p.propagate_eq]
  split <;> simp

theorem propagate_done_inv {s : p.StateV} {a : Fin 4} {pushed : Finset (Fin p.n)}
    (h : p.propagate s a = PropagateResult.done pushed) :
    pushed = p.pushClosure s a ∧ ¬ p.TransBlocked s a := by
  rw [p.propagate_eq] at h
  by_cases hb : p.TransBlocked s a
  · rw [if_pos hb] at h
    exact absurd h (by simp)
  · rw [if_neg hb] at h
    exact ⟨(PropagateResult.done.inj h).symm, hb⟩

theorem propagate_blocked_iff {s : p.StateV} {a : Fin 4} :
    p.propagate s a = PropagateResult.blocked ↔ p.TransBlocked s a := by
  rw [p.propagate_eq]
  by_cases hb : p.TransBlocked s a
  · simp [hb]
  · simp [hb]

theorem get_next_state_done_eq {s : p.StateV} {a : Fin 4} {pushed : Finset (Fin p.n)}
    (hA : s p.agentIdx ∉ p.agent_collision_map a)
    (hP : p.propagate s a = PropagateResult.done pushed) :
    ∀ i, p.get_next_state s a i =
      if i = p.agentIdx ∨ i ∈ pushed then s i + displacement a else s i := by
  intro i
  unfold get_next_state
  rw [if_neg hA, hP]

theorem get_next_state_of_transBlocked {s : p.StateV} {a : Fin 4}
    (h : p.TransBlocked s a) : p.get_next_state s a = s := by
  unfold get_next_state
  by_cases hA : s p.agentIdx ∈ p.agent_collision_map a
  · rw [if_pos hA]
  · rw [if_neg hA, p.propagate_eq s a, if_pos h]

theorem get_next_state_with_eq_get_next_state (picks : ℕ → ℕ) (s : p.StateV) (a : Fin 4) :
    p.get_next_state_with picks s a = p.get_next_state s a := by
  unfold get_next_state_with get_next_state propagate
  rw [p.loopAny_init s a picks p.n (le_refl _),
    p.loopAny_init s a (fun _ => 0) p.n (le_refl _)]

theorem get_next_state_list_length (l : List Point) (a : Fin 4) :
    (p.get_next_state_list l a).length = l.length := by
  unfold get_next_state_list
  split
  · rename_i h
    rw [List.length_ofFn, h]
  · rfl

end Puzzle

theorem finset_max_unbot_spec {S : Finset ℤ} (hS : S.Nonempty) :
    S.max.unbot' 0 ∈ S ∧ ∀ x ∈ S, x ≤ S.max.unbot' 0 := by
  rcases Finset.max_of_nonempty hS with ⟨b, hb⟩
  have hb' : S.max.unbot' 0 = b := by
    rw [hb]
    rfl
  rw [hb']
  refine ⟨Finset.mem_of_max hb, ?_⟩
  intro x hx
  have := Finset.le_max hx
  rw [hb] at this
  exact_mod_cast this

theorem finset_min_untop_spec {S : Finset ℤ} (hS : S.Nonempty) :
    S.min.untop' 0 ∈ S ∧ ∀ x ∈ S, S.min.untop' 0 ≤ x := by
  rcases Finset.min_of_nonempty hS with ⟨b, hb⟩
  have hb' : S.min.untop' 0 = b := by
    rw [hb]
    rfl
  rw [hb']
  refine ⟨Finset.mem_of_min hb, ?_⟩
  intro x hx
  have := Finset.min_le hx
  rw [hb] at this
  exact_mod_cast this

/-- For a normalized shape (cells have nonnegative coordinates, with both
coordinate minima attained at 0), an anchor whose translated cells all lie in
the grid box lies in the valid anchor range used by the collision tables. -/
theorem anchor_in_range {O : Finset Point} (hne : O.Nonempty)
    (hpos : ∀ c ∈ O, 0 ≤ c.1 ∧ 0 ≤ c.2)
    (hminx : ∃ c ∈ O, c.1 = 0) (hminy : ∃ c ∈ O, c.2 = 0)
    {r : Point} {width height : ℤ}
    (hcont : ∀ c ∈ O, 0 ≤ (c + r).1 ∧ (c + r).1 < width ∧
      0 ≤ (c + r).2 ∧ (c + r).2 < height) :
    0 ≤ r.1 ∧ 0 ≤ r.2 ∧ r.1 ≤ width - extentX O ∧ r.2 ≤ height - extentY O := by
  obtain ⟨c0, hc0, hc0x⟩ := hminx
  obtain ⟨c1, hc1, hc1y⟩ := hminy
  have hX := finset_max_unbot_spec (hne.image Prod.fst)
  have hXm := finset_min_untop_spec (hne.image Prod.fst)
  have hY := finset_max_unbot_spec (hne.image Prod.snd)
  have hYm := finset_min_untop_spec (hne.image Prod.snd)
  obtain ⟨cX, hcX, hcXe⟩ := Finset.mem_image.mp hX.1
  obtain ⟨cY, hcY, hcYe⟩ := Finset.mem_image.mp hY.1
  have hminx0 : (O.image Prod.fst).min.untop' 0 = 0 := by
    have h1 : (O.image Prod.fst).min.untop' 0 ≤ 0 := by
      have := hXm.2 0 (Finset.mem_image.mpr ⟨c0, hc0, hc0x⟩)
      exact this
    obtain ⟨cm, hcm, hcme⟩ := Finset.mem_image.mp hXm.1
    have h2 : 0 ≤ (O.image Prod.fst).min.untop' 0 := hcme ▸ (hpos cm hcm).1
    omega
  have hminy0 : (O.image Prod.snd).min.untop' 0 = 0 := by
    have h1 : (O.image Prod.snd).min.untop' 0 ≤ 0 := by
      have := hYm.2 0 (Finset.mem_image.mpr ⟨c1, hc1, hc1y⟩)
      exact this
    obtain ⟨cm, hcm, hcme⟩ := Finset.mem_image.mp hYm.1
    have h2 : 0 ≤ (O.image Prod.snd).min.untop' 0 := hcme ▸ (hpos cm hcm).2
    omega
  have heX : extentX O = (O.image Prod.fst).max.unbot' 0 + 1 := by
    unfold extentX
    omega
  have heY : extentY O = (O.image Prod.snd).max.unbot' 0 + 1 := by
    unfold extentY
    omega
  have hb0 := hcont c0 hc0
  have hb1 := hcont c1 hc1
  have hbX := hcont cX hcX
  have hbY := hcont cY hcY
  simp only [Prod.fst_add, Prod.snd_add] at hb0 hb1 hbX hbY
  refine ⟨by omega, by omega, ?_, ?_⟩
  · rw [heX, ← hcXe]
    omega
  · rw [heY, ← hcYe]
    omega

/-- If an anchor in the valid range is not in the static collision table and
the object does not overlap the obstacles at it, then the object does not
overlap the obstacles after the move either. -/
theorem no_overlap_after_move_static {a : Fin 4} {O S : Finset Point} {w h : ℤ} {r : Point}
    (hnotin : r ∉ static_collisions a O S w h)
    (hno : ¬ points_overlap O S r)
    (hr : 0 ≤ r.1 ∧ 0 ≤ r.2 ∧ r.1 ≤ w - extentX O ∧ r.2 ≤ h - extentY O) :
    ¬ points_overlap O S (r + displacement a) := by
  intro hov
  rcases points_overlap_iff.mp hov with ⟨oc, hoc, sc, hsc, he⟩
  apply hnotin
  refine mem_static_collisions.mpr ⟨⟨oc, hoc, sc, hsc, ?_⟩, hr.1, hr.2.1, hr.2.2.1,
    hr.2.2.2, hno⟩
  rcases oc with ⟨o1, o2⟩
  rcases sc with ⟨s1, s2⟩
  rcases r with ⟨r1, r2⟩
  rw [Prod.ext_iff] at he
  simp only [Prod.fst_add, Prod.snd_add] at he
  simp only [Prod.mk.injEq]
  omega

/-- The analogue for the push-contact table: a pusher that is not in pushing
contact and not overlapping now does not overlap the pushee after the move. -/
theorem no_overlap_after_move_dynamic {a : Fin 4} {P Q : Finset Point} {r : Point}
    (hnotin : r ∉ dynamic_collisions a P Q)
    (hno : ¬ points_overlap P Q r) :
    ¬ points_overlap P Q (r + displacement a) := by
  intro hov
  rcases points_overlap_iff.mp hov with ⟨pc, hpc, qc, hqc, he⟩
  apply hnotin
  refine mem_dynamic_collisions.mpr ⟨⟨pc, hpc, qc, hqc, ?_⟩, hno⟩
  rcases pc with ⟨p1, p2⟩
  rcases qc with ⟨q1, q2⟩
  rcases r with ⟨r1, r2⟩
  rw [Prod.ext_iff] at he
  simp only [Prod.fst_add, Prod.snd_add] at he
  simp only [Prod.mk.injEq]
  omega

theorem points_overlap_union_iff {A S T : Finset Point} {r : Point} :
    points_overlap A (S ∪ T) r ↔ points_overlap A S r ∨ points_overlap A T r := by
  simp only [points_overlap_iff]
  constructor
  · rintro ⟨p1, h1, p2, h2, he⟩
    rcases Finset.mem_union.mp h2 with h2 | h2
    · exact Or.inl ⟨p1, h1, p2, h2, he⟩
    · exact Or.inr ⟨p1, h1, p2, h2, he⟩
  · rintro (⟨p1, h1, p2, h2, he⟩ | ⟨p1, h1, p2, h2, he⟩)
    · exact ⟨p1, h1, p2, Finset.mem_union_left _ h2, he⟩
    · exact ⟨p1, h1, p2, Finset.mem_union_right _ h2, he⟩

theorem displacement_bounds : ∀ a : Fin 4,
    -1 ≤ (displacement a).1 ∧ (displacement a).1 ≤ 1 ∧
    -1 ≤ (displacement a).2 ∧ (displacement a).2 ≤ 1 := by
  decide

namespace Puzzle

variable (p : Puzzle)

theorem aw_after_update_succ (k : ℕ) : p.aw_after_update (k + 1) = p.aw ∪ p.wall := by
  induction k with
  | zero => rfl
  | succ k ih =>
    unfold aw_after_update at ih ⊢
    rw [Function.iterate_succ_apply', ih, Finset.union_assoc, Finset.union_self]

/-- The `agent_wall_positions` property observes the authored AgentWall cells
merged (through the in-place `update`) with all Wall cells. -/
theorem agent_wall_positions_eq : p.agent_wall_positions = p.aw ∪ p.wall := by
  unfold agent_wall_positions NUM_ACTIONS
  exact p.aw_after_update_succ 3

/-- Every agent collision map is computed against the merged obstacle set. -/
theorem agent_collision_map_eq (a : Fin 4) :
    p.agent_collision_map a =
      static_collisions a (p.shapes p.agentIdx) (p.aw ∪ p.wall) p.width p.height := by
  unfold agent_collision_map
  rw [p.aw_after_update_succ]

/-- Structural well-formedness of a loaded puzzle, as established by the
constructor: every movable has a nonempty shape normalized so that both
coordinate minima are 0 (the parser subtracts `(min xx, min yy)`), and the
wall contains the synthesized one-cell border of the `width × height` grid. -/
def WellFormed : Prop :=
  (∀ i, (p.shapes i).Nonempty) ∧
  (∀ i, ∀ c ∈ p.shapes i, 0 ≤ c.1 ∧ 0 ≤ c.2) ∧
  (∀ i, (∃ c ∈ p.shapes i, c.1 = 0) ∧ (∃ c ∈ p.shapes i, c.2 = 0)) ∧
  (∀ x ∈ Finset.Icc (0 : ℤ) (p.width - 1),
    ((x, (0 : ℤ)) ∈ p.wall ∧ (x, p.height - 1) ∈ p.wall)) ∧
  (∀ y ∈ Finset.Icc (0 : ℤ) (p.height - 1),
    (((0 : ℤ), y) ∈ p.wall ∧ (p.width - 1, y) ∈ p.wall))

instance : Decidable p.WellFormed := by
  unfold WellFormed
  infer_instance

/-- A valid state: no two movables' translated shapes intersect, no movable's
translated shape intersects the Wall, the Agent's translated shape does not
intersect the (authored) AgentWall, and every occupied cell lies in the grid
box. -/
def ValidState (s : p.StateV) : Prop :=
  (∀ i j, i ≠ j → cellsAt (p.shapes i) (s i) ∩ cellsAt (p.shapes j) (s j) = ∅) ∧
  (∀ i, cellsAt (p.shapes i) (s i) ∩ p.wall = ∅) ∧
  (cellsAt (p.shapes p.agentIdx) (s p.agentIdx) ∩ p.aw = ∅) ∧
  (∀ i, ∀ c ∈ cellsAt (p.shapes i) (s i),
    0 ≤ c.1 ∧ c.1 < p.width ∧ 0 ≤ c.2 ∧ c.2 < p.height)

instance (s : p.StateV) : Decidable (p.ValidState s) := by
  unfold ValidState
  infer_instance

/-- One step of `get_next_state` preserves validity. -/
theorem validState_get_next_state (hwf : p.WellFormed) {s : p.StateV}
    (hv : p.ValidState s) (a : Fin 4) : p.ValidState (p.get_next_state s a) := by
  by_cases hA : s p.agentIdx ∈ p.agent_collision_map a
  · have heq : p.get_next_state s a = s := by
      unfold get_next_state
      rw [if_pos hA]
    rw [heq]
    exact hv
  · cases hprop : p.propagate s a with
    | outOfFuel => exact absurd hprop (p.propagate_ne_outOfFuel s a)
    | blocked =>
      have heq : p.get_next_state s a = s := by
        unfold get_next_state
        rw [if_neg hA, hprop]
      rw [heq]
      exact hv
    | done pushed =>
      obtain ⟨hpR, hnTB⟩ := p.propagate_done_inv hprop
      have hstep := p.get_next_state_done_eq hA hprop
      obtain ⟨hwf1, hwf2, hwf3, hwfBx, hwfBy⟩ := hwf
      obtain ⟨hv1, hv2, hv3, hv4⟩ := hv
      have hint : ∀ i, ∀ c ∈ cellsAt (p.shapes i) (s i),
          1 ≤ c.1 ∧ c.1 ≤ p.width - 2 ∧ 1 ≤ c.2 ∧ c.2 ≤ p.height - 2 := by
        intro i c hc
        obtain ⟨h1, h2, h3, h4⟩ := hv4 i c hc
        have hcw : c ∉ p.wall := by
          intro hw
          exact Finset.eq_empty_iff_forall_not_mem.mp (hv2 i) c
            (Finset.mem_inter.mpr ⟨hc, hw⟩)
        have hx0 : c.1 ≠ 0 := by
          intro h0
          apply hcw
          have hcp : c = ((0 : ℤ), c.2) := Prod.ext_iff.mpr ⟨h0, rfl⟩
          rw [hcp]
          exact (hwfBy c.2 (Finset.mem_Icc.mpr ⟨h3, by omega⟩)).1
        have hxw : c.1 ≠ p.width - 1 := by
          intro h0
          apply hcw
          have hcp : c = (p.width - 1, c.2) := Prod.ext_iff.mpr ⟨h0, rfl⟩
          rw [hcp]
          exact (hwfBy c.2 (Finset.mem_Icc.mpr ⟨h3, by omega⟩)).2
        have hy0 : c.2 ≠ 0 := by
          intro h0
          apply hcw
          have hcp : c = (c.1, (0 : ℤ)) := Prod.ext_iff.mpr ⟨rfl, h0⟩
          rw [hcp]
          exact (hwfBx c.1 (Finset.mem_Icc.mpr ⟨h1, by omega⟩)).1
        have hyh : c.2 ≠ p.height - 1 := by
          intro h0
          apply hcw
          have hcp : c = (c.1, p.height - 1) := Prod.ext_iff.mpr ⟨rfl, h0⟩
          rw [hcp]
          exact (hwfBx c.1 (Finset.mem_Icc.mpr ⟨h1, by omega⟩)).2
        omega
      have hrange : ∀ i, 0 ≤ (s i).1 ∧ 0 ≤ (s i).2 ∧
          (s i).1 ≤ p.width - extentX (p.shapes i) ∧
          (s i).2 ≤ p.height - extentY (p.shapes i) := by
        intro i
        exact anchor_in_range (hwf1 i) (hwf2 i) (hwf3 i).1 (hwf3 i).2
          (fun c hc => hv4 i _ (mem_cellsAt.mpr ⟨c, hc, rfl⟩))
      have hmovedPushed : ∀ i : Fin p.n, (i = p.agentIdx ∨ i ∈ pushed) → i ∈ pushed := by
        intro i hi
        rcases hi with rfl | hi
        · rw [hpR]
          exact p.agentIdx_mem_pushClosure s a
        · exact hi
      have hF2 : ∀ m k : Fin p.n, (m = p.agentIdx ∨ m ∈ pushed) →
          ¬ (k = p.agentIdx ∨ k ∈ pushed) → ¬ p.pushedBy s a m k := by
        intro m k hm hk hpb
        have hmp : m ∈ p.pushClosure s a := hpR ▸ hmovedPushed m hm
        by_cases hb : p.wallBlocked s a k
        · exact hnTB ⟨m, hmp, k, hpb, hb⟩
        · exact hk (Or.inr (hpR ▸ p.pushClosure_closed hmp hpb hb))
      have hagNow : ¬ points_overlap (p.shapes p.agentIdx) (p.aw ∪ p.wall)
          (s p.agentIdx) := by
        rw [points_overlap_union_iff]
        rintro (h | h)
        · exact (cellsAt_inter_static_eq_empty_iff.mp hv3) h
        · exact (cellsAt_inter_static_eq_empty_iff.mp (hv2 p.agentIdx)) h
      have hagAfter : ¬ points_overlap (p.shapes p.agentIdx) (p.aw ∪ p.wall)
          (s p.agentIdx + displacement a) := by
        apply no_overlap_after_move_static ?_ hagNow (hrange p.agentIdx)
        rw [← p.agent_collision_map_eq]
        exact hA
      have hmovedWall : ∀ i : Fin p.n, (i = p.agentIdx ∨ i ∈ pushed) →
          ¬ points_overlap (p.shapes i) p.wall (s i + displacement a) := by
        intro i hi
        by_cases hia : i = p.agentIdx
        · subst hia
          intro h
          exact hagAfter (points_overlap_union_iff.mpr (Or.inr h))
        · have hiP : i ∈ p.pushClosure s a := hpR ▸ hmovedPushed i hi
          have hnb : ¬ p.wallBlocked s a i := p.pushClosure_not_blocked s a i hiP hia
          have hnotin : s i ∉ static_collisions a (p.shapes i) p.wall p.width p.height := by
            intro hmem
            apply hnb
            unfold wallBlocked wall_collision_map
            rw [if_neg hia]
            exact hmem
          exact no_overlap_after_move_static hnotin
            (cellsAt_inter_static_eq_empty_iff.mp (hv2 i)) (hrange i)
      refine ⟨?_, ?_, ?_, ?_⟩
      · intro i j hij
        rw [hstep i, hstep j]
        by_cases hmi : i = p.agentIdx ∨ i ∈ pushed <;>
          by_cases hmj : j = p.agentIdx ∨ j ∈ pushed
        · rw [if_pos hmi, if_pos hmj, cellsAt_inter_eq_empty_iff,
            show s i + displacement a - (s j + displacement a) = s i - s j from by ring]
          exact cellsAt_inter_eq_empty_iff.mp (hv1 i j hij)
        · rw [if_pos hmi, if_neg hmj, cellsAt_inter_eq_empty_iff,
            show s i + displacement a - s j = (s i - s j) + displacement a from by ring]
          apply no_overlap_after_move_dynamic ?_
            (cellsAt_inter_eq_empty_iff.mp (hv1 i j hij))
          have hjne : j ≠ p.agentIdx := fun h => hmj (Or.inl h)
          have hnpb := hF2 i j hmi hmj
          intro hmem
          apply hnpb
          unfold pushedBy movable_collision_map
          rw [if_neg hjne]
          exact hmem
        · rw [if_neg hmi, if_pos hmj, Finset.inter_comm, cellsAt_inter_eq_empty_iff,
            show s j + displacement a - s i = (s j - s i) + displacement a from by ring]
          apply no_overlap_after_move_dynamic ?_
            (cellsAt_inter_eq_empty_iff.mp (hv1 j i (Ne.symm hij)))
          have hine : i ≠ p.agentIdx := fun h => hmi (Or.inl h)
          have hnpb := hF2 j i hmj hmi
          intro hmem
          apply hnpb
          unfold pushedBy movable_collision_map
          rw [if_neg hine]
          exact hmem
        · rw [if_neg hmi, if_neg hmj]
          exact hv1 i j hij
      · intro i
        rw [hstep i]
        by_cases hmi : i = p.agentIdx ∨ i ∈ pushed
        · rw [if_pos hmi, cellsAt_inter_static_eq_empty_iff]
          exact hmovedWall i hmi
        · rw [if_neg hmi]
          exact hv2 i
      · rw [hstep p.agentIdx, if_pos (Or.inl rfl), cellsAt_inter_static_eq_empty_iff]
        intro h
        exact hagAfter (points_overlap_union_iff.mpr (Or.inl h))
      · intro i
        rw [hstep i]
        by_cases hmi : i = p.agentIdx ∨ i ∈ pushed
        · rw [if_pos hmi]
          intro c hc
          rcases mem_cellsAt.mp hc with ⟨cc, hcc, rfl⟩
          have hold := hint i (cc + s i) (mem_cellsAt.mpr ⟨cc, hcc, rfl⟩)
          have hdb := displacement_bounds a
          simp only [Prod.fst_add, Prod.snd_add] at hold ⊢
          omega
        · rw [if_neg hmi]
          exact hv4 i

/-- Validity is preserved along any action sequence. -/
theorem validState_foldl (hwf : p.WellFormed) {s : p.StateV} (hv : p.ValidState s) :
    ∀ plan : List (Fin 4), p.ValidState (plan.foldl p.get_next_state s) := by
  intro plan
  induction plan generalizing s with
  | nil => exact hv
  | cons a rest ih =>
    exact ih (p.validState_get_next_state hwf hv a)

end Puzzle

namespace Puzzle

variable (p : Puzzle)

/-- Replay characterization of the standard `is_valid_plan` loop from an
arbitrary state: it succeeds iff the goal holds after the whole plan and
fails to hold strictly earlier (including at the start). -/
theorem is_valid_plan_from_spec :
    ∀ (plan : List (Fin 4)) (s : p.StateV),
      p.is_valid_plan_from s plan = true ↔
        (p.is_goal_state (plan.foldl p.get_next_state s) = true ∧
         ∀ i < plan.length,
           p.is_goal_state ((plan.take i).foldl p.get_next_state s) = false) := by
  intro plan
  induction plan with
  | nil =>
    intro s
    simp only [is_valid_plan_from, List.foldl_nil]
    constructor
    · intro h
      exact ⟨h, fun i hi => absurd hi (Nat.not_lt_zero i)⟩
    · rintro ⟨h, _⟩
      exact h
  | cons a rest ih =>
    intro s
    by_cases hg : p.is_goal_state s = true
    · have hL : p.is_valid_plan_from s (a :: rest) = false := by
        simp [is_valid_plan_from, hg]
      rw [hL]
      constructor
      · intro h
        exact absurd h (by simp)
      · rintro ⟨h1, h2⟩
        have h0 := h2 0 (by simp)
        simp only [List.take_zero, List.foldl_nil] at h0
        rw [hg] at h0
        exact absurd h0 (by simp)
    · have hg' : p.is_goal_state s = false := by
        cases hgs : p.is_goal_state s
        · rfl
        · exact absurd hgs hg
      have hL : p.is_valid_plan_from s (a :: rest) =
          p.is_valid_plan_from (p.get_next_state s a) rest := by
        simp [is_valid_plan_from, hg]
      rw [hL, ih]
      constructor
      · rintro ⟨h1, h2⟩
        refine ⟨by simpa [List.foldl_cons] using h1, ?_⟩
        intro i hi
        cases i with
        | zero =>
          simpa [List.take_zero, List.foldl_nil] using hg'
        | succ j =>
          have hj : j < rest.length := by
            simp only [List.length_cons] at hi
            omega
          have := h2 j hj
          simpa [List.take_succ_cons, List.foldl_cons] using this
      · rintro ⟨h1, h2⟩
        refine ⟨by simpa [List.foldl_cons] using h1, ?_⟩
        intro j hj
        have := h2 (j + 1) (by simp only [List.length_cons]; omega)
        simpa [List.take_succ_cons, List.foldl_cons] using this

end Puzzle

namespace BraindeadPuzzle

/-- Replay characterization of the braindead `is_valid_plan` loop from an
arbitrary state: it succeeds iff the goal holds after some prefix of the
plan (at or before the end). -/
theorem is_valid_plan_from_spec_braindead (b : BraindeadPuzzle) :
    ∀ (plan : List (Fin 4)) (s : Point),
      b.is_valid_plan_from s plan = true ↔
        ∃ i ≤ plan.length,
          b.is_goal_state ((plan.take i).foldl b.get_next_state s) = true := by
  intro plan
  induction plan with
  | nil =>
    intro s
    simp only [is_valid_plan_from]
    constructor
    · intro h
      exact ⟨0, Nat.le_refl 0, by simpa [List.take_nil, List.foldl_nil] using h⟩
    · rintro ⟨i, _, h⟩
      simpa [List.take_nil, List.foldl_nil] using h
  | cons a rest ih =>
    intro s
    by_cases hg : b.is_goal_state s = true
    · have hL : b.is_valid_plan_from s (a :: rest) = true := by
        simp [is_valid_plan_from, hg]
      rw [hL]
      constructor
      · intro _
        exact ⟨0, Nat.zero_le _, by simpa [List.take_zero, List.foldl_nil] using hg⟩
      · intro _
        rfl
    · have hL : b.is_valid_plan_from s (a :: rest) =
          b.is_valid_plan_from (b.get_next_state s a) rest := by
        simp [is_valid_plan_from, hg]
      rw [hL, ih]
      constructor
      · rintro ⟨i, hi, h⟩
        exact ⟨i + 1, by simp only [List.length_cons]; omega,
          by simpa [List.take_succ_cons, List.foldl_cons] using h⟩
      · rintro ⟨i, hi, h⟩
        cases i with
        | zero =>
          simp only [List.take_zero, List.foldl_nil] at h
          exact absurd h hg
        | succ j =>
          refine ⟨j, by simp only [List.length_cons] at hi; omega, ?_⟩
          simpa [List.take_succ_cons, List.foldl_cons] using h

end BraindeadPuzzle

/-- The border wall of a 5 × 3 grid (3 × 1 interior), used by the concrete
witness puzzle. -/
abbrev exWall : Finset Point :=
  ([(0, 0), (1, 0), (2, 0), (3, 0), (4, 0), (0, 2), (1, 2), (2, 2), (3, 2), (4, 2),
    (0, 1), (4, 1)] : List Point).toFinset

/-- A small concrete puzzle: a 1-cell agent starting at (1,1) and a 1-cell
movable starting at (2,1) with goal (3,1), inside a 5 × 3 bordered grid. -/
abbrev ex : Puzzle :=
  { n := 2
    npos := by decide
    shapes := fun _ => {((0 : ℤ), (0 : ℤ))}
    wall := exWall
    aw := ∅
    width := 5
    height := 3
    goals := [(3, 1)]
    init := fun i => if i = 0 then (1, 1) else (2, 1) }

/-- The initial state of `ex`: agent at (1,1), movable at (2,1). -/
abbrev sA : ex.StateV := fun i => if i = 0 then (1, 1) else (2, 1)

/-- A state of `ex` with the movable against the right wall: pushing right is
transitively blocked. -/
abbrev sB : ex.StateV := fun i => if i = 0 then (2, 1) else (3, 1)

/-- A state of `ex` with the agent itself against the right wall. -/
abbrev sC : ex.StateV := fun i => if i = 0 then (3, 1) else (1, 1)

/-- C1: when the agent is not statically blocked and push propagation
completes without a block (returning the set of marked indices), the next
state translates the agent (index 0) and every marked index by the action's
unit displacement while every unmarked movable keeps its position, and the
returned state tuple has the same length as the input tuple. -/
theorem get_next_state_translates_pushed_chain (p : Puzzle) (s : p.StateV) (a : Fin 4)
    (pushed : Finset (Fin p.n))
    (hA : s p.agentIdx ∉ p.agent_collision_map a)
    (hP : p.propagate s a = PropagateResult.done pushed) :
    (∀ i, p.get_next_state s a i =
      if i = p.agentIdx ∨ i ∈ pushed then s i + displacement a else s i) ∧
    (∀ l : List Point, (p.get_next_state_list l a).length = l.length) :=
  ⟨p.get_next_state_done_eq hA hP, fun l => p.get_next_state_list_length l a⟩

theorem get_next_state_translates_pushed_chain_witness :
    (sA ex.agentIdx ∉ ex.agent_collision_map 1) ∧
    ex.propagate sA 1 = PropagateResult.done (ex.pushClosure sA 1) ∧
    ex.pushClosure sA 1 = {0, 1} ∧
    ex.get_next_state sA 1 0 = sA 0 + displacement 1 ∧
    (ex.get_next_state_list [((1 : ℤ), (1 : ℤ)), ((2 : ℤ), (1 : ℤ))] 1).length = 2 := by
  have hP : ex.propagate sA 1 = PropagateResult.done (ex.pushClosure sA 1) := by
    rw [Puzzle.propagate_eq, if_neg (by decide : ¬ ex.TransBlocked sA 1)]
  have h := get_next_state_translates_pushed_chain ex sA 1 (ex.pushClosure sA 1)
    (by decide) hP
  refine ⟨by decide, hP, by decide, ?_, ?_⟩
  · rw [h.1 0]
    have h0 : (0 : Fin 2) = ex.agentIdx ∨ (0 : Fin 2) ∈ ex.pushClosure sA 1 :=
      Or.inl rfl
    rw [if_pos h0]
  · rw [h.2 [((1 : ℤ), (1 : ℤ)), ((2 : ℤ), (1 : ℤ))]]
    rfl

/-- C2: if some movable of the pushed chain pushes a movable whose position is
in the wall-collision map for this action (the transitive-blocking condition,
which holds exactly when the propagation run aborts), then `get_next_state`
returns the original state exactly: the transition is all-or-nothing and no
partial displacement is observable. -/
theorem get_next_state_transitive_block_unchanged (p : Puzzle) (s : p.StateV) (a : Fin 4) :
    ((∃ m ∈ p.pushClosure s a, ∃ k, p.pushedBy s a m k ∧ p.wallBlocked s a k) →
      p.get_next_state s a = s) ∧
    (p.get_next_state s a = s ∨
      ∀ i, p.get_next_state s a i =
        if i = p.agentIdx ∨ i ∈ p.pushClosure s a then s i + displacement a else s i) := by
  refine ⟨fun h => p.get_next_state_of_transBlocked h, ?_⟩
  by_cases hA : s p.agentIdx ∈ p.agent_collision_map a
  · exact Or.inl (by unfold Puzzle.get_next_state; rw [if_pos hA])
  · cases hprop : p.propagate s a with
    | outOfFuel => exact absurd hprop (p.propagate_ne_outOfFuel s a)
    | blocked => exact Or.inl (by unfold Puzzle.get_next_state; rw [if_neg hA, hprop])
    | done pushed =>
      obtain ⟨hpR, _⟩ := p.propagate_done_inv hprop
      subst hpR
      exact Or.inr (p.get_next_state_done_eq hA hprop)

theorem get_next_state_transitive_block_unchanged_witness :
    ex.get_next_state sB 1 = sB :=
  (get_next_state_transitive_block_unchanged ex sB 1).1 (by decide)

/-- The push-contact set as §3 of the spec words it: the set of relative
offsets `pushee.anchor − pusher.anchor` at which moving the pusher one cell in
the direction of `action` brings it into contact with the pushee, excluding
offsets at which the two already overlap.  At relative offset
`r = pushee.anchor − pusher.anchor`, post-move contact means some pusher cell
`pc` and pushee cell `qc` satisfy `pc + displacement = qc + r`, and a
pre-existing overlap means `pc = qc + r`.  (Written from the spec's words, to
be compared with `dynamic_collisions`, which embeds the source.) -/
theorem dynamic_collisions_pushee_minus_pusher_mem {action : Fin 4}
    {P Q : Finset Point} {r : Point} :
    r ∈ dynamic_collisions_pushee_minus_pusher action P Q ↔
      (∃ pc ∈ P, ∃ qc ∈ Q, pc + displacement action = qc + r) ∧
        ¬ points_overlap Q P r := by
  unfold dynamic_collisions_pushee_minus_pusher
  rw [Finset.mem_filter]
  constructor
  · rintro ⟨him, h2⟩
    rcases Finset.mem_image.mp him with ⟨pc, hpc, hfr⟩
    rcases Finset.mem_product.mp hpc with ⟨hp, hq⟩
    refine ⟨⟨pc.1, hp, pc.2, hq, ?_⟩, h2⟩
    rw [← hfr]
    rw [Prod.ext_iff]
    simp only [Prod.fst_add, Prod.snd_add]
    constructor <;> ring
  · rintro ⟨⟨pc, hp, qc, hq, hr⟩, h2⟩
    refine ⟨Finset.mem_image.mpr ⟨(pc, qc), Finset.mem_product.mpr ⟨hp, hq⟩, ?_⟩, h2⟩
    rw [Prod.ext_iff] at hr
    simp only [Prod.fst_add, Prod.snd_add] at hr
    rw [Prod.ext_iff]
    simp only []
    obtain ⟨h1, h2'⟩ := hr
    constructor <;> [omega; omega]

/-- C3 counterexample: for 1-cell pusher and pushee shapes and action RIGHT,
the table built by `_populate_dynamic_collisions` is `{(-1, 0)}` — the offset
`pusher.anchor − pushee.anchor` of the contact configuration — whereas the
spec's described set of `pushee.anchor − pusher.anchor` offsets is `{(1, 0)}`;
the two differ, so the claim's description of the table contents is false of
the code. -/
theorem dynamic_collisions_orientation_counterexample :
    dynamic_collisions 1 {((0 : ℤ), (0 : ℤ))} {((0 : ℤ), (0 : ℤ))} ≠
      dynamic_collisions_pushee_minus_pusher 1 {((0 : ℤ), (0 : ℤ))} {((0 : ℤ), (0 : ℤ))} ∧
    dynamic_collisions 1 {((0 : ℤ), (0 : ℤ))} {((0 : ℤ), (0 : ℤ))} =
      {((-1 : ℤ), (0 : ℤ))} ∧
    dynamic_collisions_pushee_minus_pusher 1 {((0 : ℤ), (0 : ℤ))} {((0 : ℤ), (0 : ℤ))} =
      {((1 : ℤ), (0 : ℤ))} := by
  refine ⟨by decide, by decide, by decide⟩

/-- C3 (amended): `pushes[dir][pusher][pushee]` is the set of relative offsets
`pusher.anchor − pushee.anchor` at which moving the pusher one cell in `dir`
brings it into contact with the pushee (some pusher cell lands on a pushee
cell) without the two already overlapping; and `get_next_state` decides
"`m` pushes `k`" by testing membership of `r = state[m] − state[k]` in
`pushes[action][m][k]`. -/
theorem dynamic_collisions_contact_spec_amended :
    (∀ (a : Fin 4) (P Q : Finset Point) (r : Point),
      r ∈ dynamic_collisions a P Q ↔
        (∃ pc ∈ P, ∃ qc ∈ Q, pc + (r + displacement a) = qc) ∧
          ¬ points_overlap P Q r) ∧
    (∀ (p : Puzzle) (s : p.StateV) (a : Fin 4) (m k : Fin p.n),
      p.pushedBy s a m k ↔ s m - s k ∈ p.movable_collision_map a m k) := by
  constructor
  · intro a P Q r
    rw [mem_dynamic_collisions]
    constructor
    · rintro ⟨⟨pc, hp, qc, hq, hr⟩, hno⟩
      refine ⟨⟨pc, hp, qc, hq, ?_⟩, hno⟩
      subst hr
      rw [Prod.ext_iff]
      simp only [Prod.fst_add, Prod.snd_add]
      constructor <;> ring
    · rintro ⟨⟨pc, hp, qc, hq, hr⟩, hno⟩
      refine ⟨⟨pc, hp, qc, hq, ?_⟩, hno⟩
      rw [Prod.ext_iff] at hr
      simp only [Prod.fst_add, Prod.snd_add] at hr
      rcases r with ⟨r1, r2⟩
      simp only [Prod.mk.injEq]
      obtain ⟨h1, h2⟩ := hr
      constructor <;> omega
  · intro p s a m k
    exact Iff.rfl

/-- C4: from any structurally well-formed puzzle and any valid state (no two
translated shapes intersect, no shape intersects the Wall, the agent's shape
does not intersect the AgentWall, and all occupied cells lie within the
bordered grid), every state reached by any sequence of `get_next_state`
applications is again valid. -/
theorem no_overlap_invariant (p : Puzzle) (hwf : p.WellFormed) (s : p.StateV)
    (hv : p.ValidState s) (plan : List (Fin 4)) :
    p.ValidState (plan.foldl p.get_next_state s) :=
  p.validState_foldl hwf hv plan

theorem no_overlap_invariant_witness :
    ex.WellFormed ∧ ex.ValidState sA ∧
    ex.ValidState (([1] : List (Fin 4)).foldl ex.get_next_state sA) :=
  ⟨by decide, by decide, no_overlap_invariant ex (by decide) sA (by decide) [1]⟩

/-- C5: `get_next_state` is deterministic and its result does not depend on
the order in which indices are popped from the propagation work-list: the
variant `get_next_state_with picks`, which pops the work-list element at the
arbitrary position picked by `picks` at each iteration, always returns exactly
the state computed by `get_next_state` (the source's pop-the-top order),
because every blocking and push membership test reads only the original
pre-transition state. -/
theorem get_next_state_order_independent :
    ∀ (p : Puzzle) (picks : ℕ → ℕ) (s : p.StateV) (a : Fin 4),
      p.get_next_state_with picks s a = p.get_next_state s a :=
  fun p picks s a => p.get_next_state_with_eq_get_next_state picks s a

/-- C6: the static blocking set contains exactly the anchor positions
`r = sc − oc − Δd` over cell pairs `(oc, sc)` of the object and the obstacle
such that `r` lies in the valid anchor range (componentwise between 0 and the
grid dimensions minus the object's extent) and the object translated by `r`
does not already overlap the obstacle. -/
theorem static_collisions_characterization :
    ∀ (a : Fin 4) (O S : Finset Point) (w h : ℤ) (r : Point),
      r ∈ static_collisions a O S w h ↔
        (∃ oc ∈ O, ∃ sc ∈ S,
          r = (sc.1 - oc.1 - (displacement a).1, sc.2 - oc.2 - (displacement a).2)) ∧
        0 ≤ r.1 ∧ 0 ≤ r.2 ∧ r.1 ≤ w - extentX O ∧ r.2 ≤ h - extentY O ∧
        ¬ points_overlap O S r :=
  fun _ _ _ _ _ _ => mem_static_collisions

/-- C7: the standard puzzle's `is_valid_plan` returns true iff replaying the
plan from the initial state reaches a goal state exactly at the end and at no
strictly earlier point (the initial state included), whereas the braindead
variant's `is_valid_plan` returns true iff a goal state is reached at or
before the end of the plan. -/
theorem is_valid_plan_characterization :
    (∀ (p : Puzzle) (plan : List (Fin 4)),
      p.is_valid_plan plan = true ↔
        (p.is_goal_state (plan.foldl p.get_next_state p.init) = true ∧
         ∀ i < plan.length,
           p.is_goal_state ((plan.take i).foldl p.get_next_state p.init) = false)) ∧
    (∀ (b : BraindeadPuzzle) (plan : List (Fin 4)),
      b.is_valid_plan plan = true ↔
        ∃ i ≤ plan.length,
          b.is_goal_state ((plan.take i).foldl b.get_next_state b.agent_position) = true) :=
  ⟨fun p plan => p.is_valid_plan_from_spec plan p.init,
   fun b plan => b.is_valid_plan_from_spec_braindead plan b.agent_position⟩

/-- C8: if the agent's position is in the agent collision map for the action,
`get_next_state` returns a state equal to the input state (a no-op with no
observable side effect). -/
theorem get_next_state_agent_blocked_noop (p : Puzzle) (s : p.StateV) (a : Fin 4)
    (h : s p.agentIdx ∈ p.agent_collision_map a) : p.get_next_state s a = s := by
  unfold Puzzle.get_next_state
  rw [if_pos h]

theorem get_next_state_agent_blocked_noop_witness :
    (sC ex.agentIdx ∈ ex.agent_collision_map 1) ∧ ex.get_next_state sC 1 = sC :=
  ⟨by decide, get_next_state_agent_blocked_noop ex sC 1 (by decide)⟩

/-- C9: push propagation always terminates: with the `p.n` iterations of fuel
provided by `propagate` (each movable is marked at most once, and only
newly-marked movables enter the work-list, so at most `p.n` pops happen) the
loop never runs out of fuel, and any fuel of at least `p.n` iterations yields
the very same result. -/
theorem propagate_always_terminates :
    (∀ (p : Puzzle) (s : p.StateV) (a : Fin 4),
      p.propagate s a ≠ PropagateResult.outOfFuel) ∧
    (∀ (p : Puzzle) (s : p.StateV) (a : Fin 4) (fuel : ℕ), p.n ≤ fuel →
      p.loopAny s a (fun _ => 0) fuel {p.agentIdx} [p.agentIdx] = p.propagate s a) := by
  constructor
  · intro p s a
    exact p.propagate_ne_outOfFuel s a
  · intro p s a fuel hfuel
    rw [p.loopAny_init s a _ fuel hfuel, p.propagate_eq]

theorem propagate_always_terminates_witness :
    ex.propagate sA 1 ≠ PropagateResult.outOfFuel ∧
    ex.loopAny sA 1 (fun _ => 0) 5 {ex.agentIdx} [ex.agentIdx] = ex.propagate sA 1 :=
  ⟨propagate_always_terminates.1 ex sA 1,
   propagate_always_terminates.2 ex sA 1 5 (by decide)⟩

/-- C10: after construction, `agent_wall_positions` is a superset of
`wall_positions`: the constructor aliases the parsed AgentWall cell set and
the agent-collision-map loop merges every wall cell into that same set, so
the property observes the authored AgentWall cells plus all Wall cells, and
every agent collision map is computed against that merged set. -/
theorem agent_wall_positions_contains_walls :
    ∀ p : Puzzle, p.wall_positions ⊆ p.agent_wall_positions ∧
      p.agent_wall_positions = p.aw ∪ p.wall ∧
      ∀ a : Fin 4, p.agent_collision_map a =
        static_collisions a (p.shapes p.agentIdx) (p.aw ∪ p.wall) p.width p.height := by
  intro p
  refine ⟨?_, p.agent_wall_positions_eq, p.agent_collision_map_eq⟩
  rw [p.agent_wall_positions_eq]
  exact Finset.subset_union_right
